import Mathlib

/-!
# CalcGTest: a calculator with a pluggable operation history

A shallow embedding of `InMemoryHistory` (`InMemoryHistory.h/.cpp`) and
`SimpleCalculator` (`SimpleCalculator.h/.cpp`), followed by theorems about them.

* `std::vector<std::string>` is `List String`, `push_back` is append at the end.
* `size_t` counts are `Nat`.
* `int` is a 32-bit two's complement integer: values are `Int`s in
  `[INT_MIN, INT_MAX]` (`isInt`), `+ - *` wrap modulo `2^32`, `/` truncates.
* `IHistory&` is an address into a heap of history objects.
-/

namespace Calc

/-! ## InMemoryHistory -/

/-- The class `InMemoryHistory`: its only data member is the vector `m_operations`. -/
structure InMemoryHistory where
  m_operations : List String
  deriving DecidableEq, Repr

/-- The default constructor `InMemoryHistory() = default`: an empty vector. -/
def InMemoryHistory.new : InMemoryHistory := { m_operations := [] }

/-- The range constructor `std::vector(first, last)` applied to iterators of `v`
at offsets `first` and `last`: the elements at positions `first, ..., last - 1`. -/
def vectorRange (v : List String) (first last : Nat) : List String :=
  (v.drop first).take (last - first)

/-- Method `InMemoryHistory::AddEntry`: `m_operations.push_back(operation)`. -/
def InMemoryHistory.AddEntry (self : InMemoryHistory) (operation : String) : InMemoryHistory :=
  { m_operations := self.m_operations ++ [operation] }

/-- Method `InMemoryHistory::GetLastOperations`:
`start = end() - std::min(count, size())`, result `{start, end()}`.
Iterators are offsets from `begin()`, so `end()` is `size()`. -/
def InMemoryHistory.GetLastOperations (self : InMemoryHistory) (count : Nat) : List String :=
  let end_ := self.m_operations.length
  let start := end_ - min count self.m_operations.length
  vectorRange self.m_operations start end_

/-! ## The type `int` -/

/-- The smallest `int`, `std::numeric_limits<int>::min()`. -/
def INT_MIN : Int := -2147483648

/-- The largest `int`, `std::numeric_limits<int>::max()`. -/
def INT_MAX : Int := 2147483647

/-- The values an `int` can hold. -/
def isInt (x : Int) : Prop := INT_MIN ≤ x ∧ x ≤ INT_MAX

instance (x : Int) : Decidable (isInt x) := by
  unfold isInt
  exact inferInstance

/-- Reduction of a mathematical integer to the `int` congruent to it modulo `2^32`:
what the machine `add`, `sub` and `imul` instructions leave in a 32-bit register. -/
def wrapInt (x : Int) : Int := (x + 2147483648) % 4294967296 - 2147483648

/-- The built-in `a + b` on `int`. -/
def intAdd (a b : Int) : Int := wrapInt (a + b)

/-- The built-in `a - b` on `int`. -/
def intSub (a b : Int) : Int := wrapInt (a - b)

/-- The built-in `a * b` on `int`. -/
def intMul (a b : Int) : Int := wrapInt (a * b)

/-- The built-in `a / b` on `int`: the algebraic quotient with the fractional part
discarded. The language leaves two cases undefined, a zero divisor and a quotient
that is not representable; the division instruction raises the divide error in
both, which terminates the process. `none` is that fault. -/
def intDiv (a b : Int) : Option Int :=
  if b = 0 then none
  else if isInt (Int.tdiv a b) then some (Int.tdiv a b)
  else none

/-! ## Formatting: `std::ostringstream << int` -/

/-- The character `'0' + d` of a decimal digit `d`. -/
def digitChar (d : Nat) : Char := Char.ofNat (48 + d)

/-- Digits of `n`, most significant first, pushed in front of `acc`: the last digit is
`n % 10`, the ones before it are the digits of `n / 10`. `fuel` bounds the recursion. -/
def utoaCore : Nat → Nat → List Char → List Char
  | 0, _, acc => acc
  | fuel + 1, n, acc =>
    if n / 10 = 0 then digitChar (n % 10) :: acc
    else utoaCore fuel (n / 10) (digitChar (n % 10) :: acc)

/-- Decimal digits of an unsigned magnitude; `0` gives the single digit `0`. -/
def utoa (n : Nat) : List Char := utoaCore (n + 1) n []

/-- The characters `operator<<(int)` inserts with the default formatting flags
(`std::dec`, no `showpos`, no width): a minus sign for a negative value, then the
decimal digits of the magnitude. -/
def itoa (n : Int) : List Char :=
  if n < 0 then '-' :: utoa n.natAbs else utoa n.natAbs

/-- An `int` inserted into an output string stream, `oss << n`. -/
def ostreamInt (oss : String) (n : Int) : String := oss ++ String.mk (itoa n)

/-- A C string inserted into an output string stream, `oss << s`. -/
def ostreamStr (oss : String) (s : String) : String := oss ++ s

/-! ## The heap of history objects -/

/-- An `IHistory&`: the address of a history object. -/
abbrev Addr := Nat

/-- The history objects alive in the program, by address. -/
abbrev Heap := Addr → InMemoryHistory

/-- The heap after the object at `p` has become `h`. -/
def Heap.update (σ : Heap) (p : Addr) (h : InMemoryHistory) : Heap :=
  fun q => if q = p then h else σ q

/-- The implicitly defined copy assignment `IHistory::operator=`. `IHistory` declares
no data member and the operator is not virtual, so assigning through an `IHistory&`
copies nothing: the target keeps its own `m_operations`. -/
def IHistory.assign (target _source : InMemoryHistory) : InMemoryHistory := target

/-! ## SimpleCalculator -/

/-- The class `SimpleCalculator`: its only data member is the reference `m_history`. -/
structure SimpleCalculator where
  m_history : Addr
  deriving DecidableEq, Repr

/-- How a call of an arithmetic method ends: it returns `value` and leaves the heap
`heap`, or the process dies of the divide error with the heap as it was then. -/
inductive Outcome where
  | returned (value : Int) (heap : Heap)
  | fault (heap : Heap)

namespace SimpleCalculator

/-- The constructor `SimpleCalculator(IHistory& history) : m_history(history)`. -/
def new (history : Addr) : SimpleCalculator := { m_history := history }

/-- Method `SimpleCalculator::SetHistory`: the statement `m_history = history;`. A reference
cannot be reseated, so this is an assignment to the object `m_history` refers to. -/
def SetHistory (self : SimpleCalculator) (σ : Heap) (history : Addr) : Heap :=
  σ.update self.m_history (IHistory.assign (σ self.m_history) (σ history))

/-- Method `SimpleCalculator::LogOperation`:
`oss << a << " " << op << " " << b << " = " << result; m_history.AddEntry(oss.str())`. -/
def LogOperation (self : SimpleCalculator) (σ : Heap) (a : Int) (op : String) (b : Int)
    (result : Int) : Heap :=
  let oss := ostreamInt (ostreamStr (ostreamInt (ostreamStr (ostreamStr (ostreamStr
    (ostreamInt "" a) " ") op) " ") b) " = ") result
  σ.update self.m_history ((σ self.m_history).AddEntry oss)

/-- Method `SimpleCalculator::Add`: `int result = a + b`, logged, then returned. -/
def Add (self : SimpleCalculator) (σ : Heap) (a b : Int) : Outcome :=
  let result := intAdd a b
  Outcome.returned result (self.LogOperation σ a "+" b result)

/-- Method `SimpleCalculator::Subtract`: `int result = a - b`, logged, then returned. -/
def Subtract (self : SimpleCalculator) (σ : Heap) (a b : Int) : Outcome :=
  let result := intSub a b
  Outcome.returned result (self.LogOperation σ a "-" b result)

/-- Method `SimpleCalculator::Multiply`: `int result = a * b`, logged, then returned. -/
def Multiply (self : SimpleCalculator) (σ : Heap) (a b : Int) : Outcome :=
  let result := intMul a b
  Outcome.returned result (self.LogOperation σ a "*" b result)

/-- Method `SimpleCalculator::Divide`: `int result = a / b`, logged, then returned.
The division is evaluated first, so a fault leaves before `LogOperation` is reached. -/
def Divide (self : SimpleCalculator) (σ : Heap) (a b : Int) : Outcome :=
  match intDiv a b with
  | none => Outcome.fault σ
  | some result => Outcome.returned result (self.LogOperation σ a "/" b result)

end SimpleCalculator

/-- The four arithmetic methods of `ICalculator`. -/
inductive Operation where
  | Add
  | Subtract
  | Multiply
  | Divide
  deriving DecidableEq, Repr

/-- The symbol each method passes to `LogOperation`. -/
def Operation.symbol : Operation → String
  | Operation.Add => "+"
  | Operation.Subtract => "-"
  | Operation.Multiply => "*"
  | Operation.Divide => "/"

/-- A call through the `ICalculator` interface, dispatched to the method. -/
def SimpleCalculator.call (self : SimpleCalculator) (op : Operation) (σ : Heap)
    (a b : Int) : Outcome :=
  match op with
  | Operation.Add => self.Add σ a b
  | Operation.Subtract => self.Subtract σ a b
  | Operation.Multiply => self.Multiply σ a b
  | Operation.Divide => self.Divide σ a b

/-- The heap in which every history object is freshly constructed. -/
def Heap.fresh : Heap := fun _ => InMemoryHistory.new

/-! ## Specification-side definitions -/

/-- The record text `<a> <op> <b> = <result>`, each integer written the way
`operator<<` writes it and the parts joined by single spaces. -/
def recordText (a : Int) (op : String) (b result : Int) : String :=
  String.mk (itoa a) ++ " " ++ op ++ " " ++ String.mk (itoa b) ++ " = " ++ String.mk (itoa result)

/-- The heap after `record` has been appended to the store at `p` and nothing else
has changed. -/
def Heap.appendAt (σ : Heap) (p : Addr) (record : String) : Heap :=
  σ.update p { m_operations := (σ p).m_operations ++ [record] }

/-- The mathematical quotient of `a` by `b`, taken in the rationals and truncated
toward zero: rounded down when it is not negative, rounded up when it is. -/
def truncQuot (a b : Int) : Int :=
  if 0 ≤ (a : ℚ) / (b : ℚ) then ⌊(a : ℚ) / (b : ℚ)⌋ else ⌈(a : ℚ) / (b : ℚ)⌉

/-- The base-10 digits of a magnitude, most significant first, `0` written as the
single digit `0`. -/
def decDigits (m : Nat) : List Char :=
  if m = 0 then ['0'] else (Nat.digits 10 m).reverse.map digitChar

/-- The base-10 rendering `dec(n)`: a leading `-` exactly when `n` is negative, then the
digits of the magnitude. -/
def dec (n : Int) : List Char :=
  if n < 0 then '-' :: decDigits n.natAbs else decDigits n.natAbs

/-- The number a string of decimal digits denotes. -/
def decimalValue (ds : List Char) : Nat :=
  ds.foldl (fun acc ch => 10 * acc + (ch.toNat - 48)) 0

/-- The string `ds` is the decimal numeral of `m`: it is not empty, it consists of the
digits `0`-`9` only, it has no leading zero unless it is the numeral `0`, and it
denotes `m`. -/
def IsDecimalOf (ds : List Char) (m : Nat) : Prop :=
  ds ≠ [] ∧ (∀ ch ∈ ds, ch.isDigit = true) ∧ (ds.head? = some '0' → ds = ['0'])
    ∧ decimalValue ds = m

/-- The record format of the specification,
`dec(a) ++ " " ++ op ++ " " ++ dec(b) ++ " = " ++ dec(result)`. -/
def recordSpec (a : Int) (op : String) (b result : Int) : String :=
  String.mk (dec a) ++ " " ++ op ++ " " ++ String.mk (dec b) ++ " = " ++ String.mk (dec result)

/-! ## Iterator preconditions, reads as state transitions, sequences of calls -/

/-- The iterator `it - k` for an iterator at offset `pos` of a vector of `size`
elements: it is defined only when `it` is an iterator of the vector and the result
does not leave `[begin(), end()]`, that is when `k ≤ pos ≤ size`. -/
def iteratorSub (size pos k : Nat) : Option Nat :=
  if k ≤ pos ∧ pos ≤ size then some (pos - k) else none

/-- The range constructor with its precondition: `[first, last)` has to be a valid
range of `v`, that is `first ≤ last ≤ size()`. -/
def vectorRangeChecked (v : List String) (first last : Nat) : Option (List String) :=
  if first ≤ last ∧ last ≤ v.length then some (vectorRange v first last) else none

/-- Method `InMemoryHistory::GetLastOperations` with the preconditions of its iterator
arithmetic and of the range constructor checked: `none` is an out-of-bounds access. -/
def InMemoryHistory.GetLastOperationsChecked (self : InMemoryHistory) (count : Nat) :
    Option (List String) :=
  let end_ := self.m_operations.length
  match iteratorSub self.m_operations.length end_ (min count self.m_operations.length) with
  | none => none
  | some start => vectorRangeChecked self.m_operations start end_

/-- A call of the `const` method `GetLastOperations` as a state transition: the vector
returned and the store after the call. The body only reads `m_operations` (`end()`,
`size()`, the copy made by the range constructor), so the store is handed on as is. -/
def InMemoryHistory.GetLastOperationsRun (self : InMemoryHistory) (count : Nat) :
    List String × InMemoryHistory :=
  (self.GetLastOperations count, self)

/-- A caller making the calls of the list one after the other on the same calculator,
with nothing in between: the values returned, in order, and the heap after the last
call; `none` when one of the calls faults, which ends the process. -/
def SimpleCalculator.runCalls (self : SimpleCalculator) :
    Heap → List (Operation × Int × Int) → Option (List Int × Heap)
  | σ, [] => some ([], σ)
  | σ, (op, a, b) :: rest =>
    match self.call op σ a b with
    | Outcome.fault _ => none
    | Outcome.returned v σ1 =>
      match self.runCalls σ1 rest with
      | none => none
      | some (vs, σ2) => some (v :: vs, σ2)

/-- The records of a sequence of calls and the values they returned, in call order. -/
def callRecords (calls : List (Operation × Int × Int)) (vs : List Int) : List String :=
  List.zipWith (fun call v => recordText call.2.1 call.1.symbol call.2.2 v) calls vs

/-! ## Theorems: InMemoryHistory -/

/-- The range constructor over `[first, size)` copies everything from `first` on. -/
theorem vectorRange_to_end (v : List String) (first : Nat) :
    vectorRange v first v.length = v.drop first := by
  unfold vectorRange
  apply List.take_of_length_le
  simp

/-- The vector a store holds after `GetLastOperations` is asked for `count` records. -/
theorem GetLastOperations_eq_drop (h : InMemoryHistory) (count : Nat) :
    h.GetLastOperations count
      = h.m_operations.drop (h.m_operations.length - min count h.m_operations.length) := by
  unfold InMemoryHistory.GetLastOperations
  exact vectorRange_to_end _ _

/-- Every store state is reached from a fresh store by appending its records in order. -/
theorem foldl_AddEntry_m_operations (h : InMemoryHistory) (rs : List String) :
    (rs.foldl InMemoryHistory.AddEntry h).m_operations = h.m_operations ++ rs := by
  induction rs generalizing h with
  | nil => simp
  | cons r rs ih => simp [List.foldl_cons, ih, InMemoryHistory.AddEntry]

/-- C1: for a store holding `r1..rn` (the records appended, in that order, to a fresh
store) and every count `k`, `GetLastOperations k` is exactly the last `min k n`
records in insertion order: it has `min k n` elements, it is the part of the sequence
left after dropping the first `n - min k n` records, and its `i`-th element is
the record at position `n - min k n + i`. -/
theorem GetLastOperations_last_min (rs : List String) (k : Nat) :
    ((rs.foldl InMemoryHistory.AddEntry InMemoryHistory.new).GetLastOperations k
        = rs.drop (rs.length - min k rs.length))
    ∧ ((rs.foldl InMemoryHistory.AddEntry InMemoryHistory.new).GetLastOperations k).length
        = min k rs.length
    ∧ rs.take (rs.length - min k rs.length)
        ++ (rs.foldl InMemoryHistory.AddEntry InMemoryHistory.new).GetLastOperations k = rs
    ∧ ∀ i, i < min k rs.length →
        ((rs.foldl InMemoryHistory.AddEntry InMemoryHistory.new).GetLastOperations k)[i]?
          = rs[rs.length - min k rs.length + i]? := by
  have hops : (rs.foldl InMemoryHistory.AddEntry InMemoryHistory.new).m_operations = rs := by
    rw [foldl_AddEntry_m_operations]
    simp [InMemoryHistory.new]
  have hdrop := GetLastOperations_eq_drop
    (rs.foldl InMemoryHistory.AddEntry InMemoryHistory.new) k
  rw [hops] at hdrop
  rw [hdrop]
  refine ⟨rfl, ?_, ?_, ?_⟩
  · rw [List.length_drop]
    omega
  · exact List.take_append_drop _ _
  · intro i _
    exact List.getElem?_drop _ _ _

/-- C8: `AddEntry s` on a store holding `r1..rn` is total (it takes any string and
always yields a state) and leaves `r1..rn, s`: the length grows by exactly one, `s`
is the last record and the first `n` records are the old ones, unchanged. -/
theorem AddEntry_appends_at_end (h : InMemoryHistory) (s : String) :
    (h.AddEntry s).m_operations = h.m_operations ++ [s]
    ∧ (h.AddEntry s).m_operations.length = h.m_operations.length + 1
    ∧ (h.AddEntry s).m_operations.getLast? = some s
    ∧ (h.AddEntry s).m_operations.take h.m_operations.length = h.m_operations
    ∧ ∀ i, i < h.m_operations.length →
        (h.AddEntry s).m_operations[i]? = h.m_operations[i]? := by
  unfold InMemoryHistory.AddEntry
  refine ⟨rfl, by simp, by simp, by simp, ?_⟩
  intro i hi
  exact List.getElem?_append_left hi

/-- C10: after `AddEntry r` on any store, empty or not, `GetLastOperations 1` is the
one-element list holding `r`. -/
theorem GetLastOperations_one_after_AddEntry (h : InMemoryHistory) (r : String) :
    (h.AddEntry r).GetLastOperations 1 = [r] := by
  rw [GetLastOperations_eq_drop]
  simp [InMemoryHistory.AddEntry]

/-! ## Theorems: the heap -/

theorem Heap.update_same (σ : Heap) (p : Addr) (h : InMemoryHistory) :
    σ.update p h p = h := by
  simp [Heap.update]

theorem Heap.update_other (σ : Heap) (p q : Addr) (h : InMemoryHistory) (hq : q ≠ p) :
    σ.update p h q = σ q := by
  simp [Heap.update, hq]

theorem Heap.update_self (σ : Heap) (p : Addr) : σ.update p (σ p) = σ := by
  funext q
  by_cases hq : q = p
  · subst hq
    simp [Heap.update]
  · simp [Heap.update, hq]

theorem Heap.appendAt_same (σ : Heap) (p : Addr) (r : String) :
    (σ.appendAt p r p).m_operations = (σ p).m_operations ++ [r] := by
  simp [Heap.appendAt, Heap.update]

theorem Heap.appendAt_other (σ : Heap) (p q : Addr) (r : String) (hq : q ≠ p) :
    σ.appendAt p r q = σ q := by
  simp [Heap.appendAt, Heap.update, hq]

/-! ## Theorems: SimpleCalculator -/

/-- The stream of `LogOperation` holds the record text when `str()` is taken. -/
theorem LogOperation_eq_appendAt (c : SimpleCalculator) (σ : Heap) (a : Int) (op : String)
    (b result : Int) :
    c.LogOperation σ a op b result = σ.appendAt c.m_history (recordText a op b result) := by
  simp [SimpleCalculator.LogOperation, Heap.appendAt, InMemoryHistory.AddEntry, recordText,
    ostreamInt, ostreamStr]

theorem Add_eq (c : SimpleCalculator) (σ : Heap) (a b : Int) :
    c.Add σ a b = Outcome.returned (intAdd a b)
      (σ.appendAt c.m_history (recordText a "+" b (intAdd a b))) := by
  simp [SimpleCalculator.Add, LogOperation_eq_appendAt]

theorem Subtract_eq (c : SimpleCalculator) (σ : Heap) (a b : Int) :
    c.Subtract σ a b = Outcome.returned (intSub a b)
      (σ.appendAt c.m_history (recordText a "-" b (intSub a b))) := by
  simp [SimpleCalculator.Subtract, LogOperation_eq_appendAt]

theorem Multiply_eq (c : SimpleCalculator) (σ : Heap) (a b : Int) :
    c.Multiply σ a b = Outcome.returned (intMul a b)
      (σ.appendAt c.m_history (recordText a "*" b (intMul a b))) := by
  simp [SimpleCalculator.Multiply, LogOperation_eq_appendAt]

theorem Divide_eq_of_some (c : SimpleCalculator) (σ : Heap) (a b q : Int)
    (h : intDiv a b = some q) :
    c.Divide σ a b = Outcome.returned q (σ.appendAt c.m_history (recordText a "/" b q)) := by
  simp [SimpleCalculator.Divide, h, LogOperation_eq_appendAt]

theorem Divide_eq_of_none (c : SimpleCalculator) (σ : Heap) (a b : Int)
    (h : intDiv a b = none) : c.Divide σ a b = Outcome.fault σ := by
  simp [SimpleCalculator.Divide, h]

/-- A call that returns has appended the record of its own symbol and result. -/
theorem call_returned (c : SimpleCalculator) (op : Operation) (σ : Heap) (a b v : Int)
    (σ1 : Heap) (h : c.call op σ a b = Outcome.returned v σ1) :
    σ1 = σ.appendAt c.m_history (recordText a op.symbol b v) := by
  cases op with
  | Add =>
    simp only [SimpleCalculator.call, Add_eq, Outcome.returned.injEq] at h
    rw [← h.2, ← h.1]
    rfl
  | Subtract =>
    simp only [SimpleCalculator.call, Subtract_eq, Outcome.returned.injEq] at h
    rw [← h.2, ← h.1]
    rfl
  | Multiply =>
    simp only [SimpleCalculator.call, Multiply_eq, Outcome.returned.injEq] at h
    rw [← h.2, ← h.1]
    rfl
  | Divide =>
    simp only [SimpleCalculator.call] at h
    cases hq : intDiv a b with
    | none =>
      rw [Divide_eq_of_none c σ a b hq] at h
      cases h
    | some q =>
      rw [Divide_eq_of_some c σ a b q hq] at h
      simp only [Outcome.returned.injEq] at h
      rw [← h.2, ← h.1]
      rfl

/-- C2: whenever a call of Add, Subtract, Multiply or Divide returns a value `v`, the
bound store afterwards is the bound store before with exactly one record appended
at the end, the record `<a> <symbol> <b> = <v>` with the symbol of the operation;
the earlier records are the same, in the same places, and no other store changes. -/
theorem call_appends_exactly_one_record (c : SimpleCalculator) (op : Operation) (σ : Heap)
    (a b v : Int) (σ1 : Heap) (h : c.call op σ a b = Outcome.returned v σ1) :
    (σ1 c.m_history).m_operations
        = (σ c.m_history).m_operations ++ [recordText a op.symbol b v]
    ∧ (σ1 c.m_history).m_operations.length = (σ c.m_history).m_operations.length + 1
    ∧ (σ1 c.m_history).m_operations.take (σ c.m_history).m_operations.length
        = (σ c.m_history).m_operations
    ∧ ∀ q, q ≠ c.m_history → σ1 q = σ q := by
  rw [call_returned c op σ a b v σ1 h]
  refine ⟨Heap.appendAt_same _ _ _, ?_, ?_, ?_⟩
  · rw [Heap.appendAt_same]
    simp
  · rw [Heap.appendAt_same]
    simp
  · intro q hq
    exact Heap.appendAt_other _ _ _ _ hq

/-- Witness for C2: `Add(2, 2)` on a calculator bound to a fresh store returns `4` and
the store then holds the single record `2 + 2 = 4`. -/
theorem call_appends_exactly_one_record_witness :
    ((SimpleCalculator.new 0).call Operation.Add Heap.fresh 2 2
        = Outcome.returned 4 (Heap.fresh.appendAt 0 "2 + 2 = 4"))
    ∧ (Heap.fresh.appendAt 0 "2 + 2 = 4" 0).m_operations = [] ++ ["2 + 2 = 4"] :=
  ⟨rfl, (call_appends_exactly_one_record (SimpleCalculator.new 0) Operation.Add Heap.fresh
    2 2 4 (Heap.fresh.appendAt 0 "2 + 2 = 4") rfl).1⟩

/-- C4: `Divide(a, 0)` takes the fault path for every `a` and every heap, and the heap
at the fault is the heap before the call: no record was appended to any store. -/
theorem Divide_by_zero_faults_without_record (c : SimpleCalculator) (σ : Heap) (a : Int) :
    c.Divide σ a 0 = Outcome.fault σ ∧ ∀ v σ1, c.Divide σ a 0 ≠ Outcome.returned v σ1 := by
  have h : c.Divide σ a 0 = Outcome.fault σ := Divide_eq_of_none c σ a 0 (by simp [intDiv])
  refine ⟨h, ?_⟩
  intro v σ1 hv
  rw [h] at hv
  cases hv

/-! ## Theorems: `int` arithmetic -/

theorem wrapInt_of_isInt (x : Int) (h : isInt x) : wrapInt x = x := by
  unfold isInt INT_MIN INT_MAX at h
  unfold wrapInt
  omega

theorem wrapInt_isInt (x : Int) : isInt (wrapInt x) := by
  unfold isInt INT_MIN INT_MAX wrapInt
  omega

theorem truncQuot_natCast (m n : Nat) : truncQuot m n = ((m / n : Nat) : Int) := by
  unfold truncQuot
  have h : (0 : ℚ) ≤ ((m : Int) : ℚ) / ((n : Int) : ℚ) := by positivity
  rw [if_pos h]
  have := Rat.floor_intCast_div_natCast (m : Int) n
  simpa using this

theorem truncQuot_neg_left (a b : Int) : truncQuot (-a) b = - truncQuot a b := by
  unfold truncQuot
  push_cast
  rw [neg_div]
  rcases lt_trichotomy ((a : ℚ) / b) 0 with h | h | h
  · rw [if_pos (by linarith), if_neg (by linarith), Int.floor_neg]
  · rw [h]
    simp
  · rw [if_neg (by linarith), if_pos (by linarith), Int.ceil_neg]

theorem truncQuot_neg_right (a b : Int) : truncQuot a (-b) = - truncQuot a b := by
  unfold truncQuot
  push_cast
  rw [div_neg]
  rcases lt_trichotomy ((a : ℚ) / b) 0 with h | h | h
  · rw [if_pos (by linarith), if_neg (by linarith), Int.floor_neg]
  · rw [h]
    simp
  · rw [if_neg (by linarith), if_pos (by linarith), Int.ceil_neg]

/-- The quotient the built-in division computes is the rational quotient truncated
toward zero. -/
theorem tdiv_eq_truncQuot (a b : Int) : Int.tdiv a b = truncQuot a b := by
  obtain ⟨m, rfl | rfl⟩ := Int.eq_nat_or_neg a <;> obtain ⟨n, rfl | rfl⟩ := Int.eq_nat_or_neg b
  · rw [truncQuot_natCast]
    rfl
  · rw [truncQuot_neg_right, truncQuot_natCast, Int.tdiv_neg]
    rfl
  · rw [truncQuot_neg_left, truncQuot_natCast, Int.neg_tdiv]
    rfl
  · rw [truncQuot_neg_left, truncQuot_neg_right, truncQuot_natCast, Int.neg_tdiv, Int.tdiv_neg]
    rfl

/-- The truncated quotient of two `int`s is an `int`, except for `INT_MIN / -1`. -/
theorem tdiv_isInt (a b : Int) (ha : isInt a) (hb : isInt b)
    (hov : ¬ (a = INT_MIN ∧ b = -1)) : isInt (Int.tdiv a b) := by
  unfold isInt INT_MIN INT_MAX at *
  by_cases h1 : b = -1
  · subst h1
    have : Int.tdiv a (-1) = -a := by rw [Int.tdiv_neg, Int.tdiv_one]
    rw [this]
    omega
  · by_cases h2 : b = 1
    · subst h2
      rw [Int.tdiv_one]
      omega
    · by_cases h3 : b = 0
      · subst h3
        rw [Int.tdiv_zero]
        omega
      · have hq : (Int.tdiv a b).natAbs = a.natAbs / b.natAbs := Int.natAbs_tdiv a b
        have hb2 : 2 ≤ b.natAbs := by omega
        have hle : a.natAbs / b.natAbs ≤ a.natAbs / 2 := Nat.div_le_div_left hb2 (by norm_num)
        omega

theorem intDiv_eq_some (a b : Int) (ha : isInt a) (hb : isInt b) (hb0 : b ≠ 0)
    (hov : ¬ (a = INT_MIN ∧ b = -1)) : intDiv a b = some (truncQuot a b) := by
  unfold intDiv
  rw [if_neg hb0, if_pos (tdiv_isInt a b ha hb hov), tdiv_eq_truncQuot]

theorem intDiv_eq_none_iff (a b : Int) (ha : isInt a) (hb : isInt b) :
    intDiv a b = none ↔ (b = 0 ∨ (a = INT_MIN ∧ b = -1)) := by
  constructor
  · intro h
    by_contra hcon
    push_neg at hcon
    have hs := intDiv_eq_some a b ha hb hcon.1 (fun hh => hcon.2 hh.1 hh.2)
    rw [h] at hs
    cases hs
  · rintro (h | ⟨h1, h2⟩)
    · subst h
      simp [intDiv]
    · subst h1 h2
      decide

/-! ## Theorems: the arithmetic methods -/

/-- C3, as amended: for all `int`s `a`, `b` with `b ≠ 0`, other than `INT_MIN / -1`
(whose quotient is not an `int`), `Divide(a, b)` returns the rational quotient
truncated toward zero, and the bound store afterwards is the store before with
exactly one record appended, `{a} / {b} = {trunc(a/b)}`. -/
theorem Divide_returns_truncated_quotient (c : SimpleCalculator) (σ : Heap) (a b : Int)
    (ha : isInt a) (hb : isInt b) (hb0 : b ≠ 0) (hov : ¬ (a = INT_MIN ∧ b = -1)) :
    c.Divide σ a b = Outcome.returned (truncQuot a b)
        (σ.appendAt c.m_history (recordText a "/" b (truncQuot a b)))
    ∧ (σ.appendAt c.m_history (recordText a "/" b (truncQuot a b)) c.m_history).m_operations
        = (σ c.m_history).m_operations ++ [recordText a "/" b (truncQuot a b)] :=
  ⟨Divide_eq_of_some c σ a b _ (intDiv_eq_some a b ha hb hb0 hov), Heap.appendAt_same _ _ _⟩

/-- Witness for C3: `Divide(-5, 2)` returns `-2` and appends `-5 / 2 = -2`. -/
theorem Divide_returns_truncated_quotient_witness :
    truncQuot (-5) 2 = -2
    ∧ (SimpleCalculator.new 0).Divide Heap.fresh (-5) 2 = Outcome.returned (truncQuot (-5) 2)
        (Heap.fresh.appendAt 0 (recordText (-5) "/" 2 (truncQuot (-5) 2)))
    ∧ recordText (-5) "/" 2 (-2) = "-5 / 2 = -2" :=
  ⟨by rw [← tdiv_eq_truncQuot]; decide,
   (Divide_returns_truncated_quotient (SimpleCalculator.new 0) Heap.fresh (-5) 2
      (by decide) (by decide) (by decide) (by decide)).1,
   by decide⟩

/-- Counterexample to C3 as stated: `INT_MIN` and `-1` are `int`s with a nonzero
divisor, the truncated quotient is `2147483648`, which is not an `int`, and
`Divide(INT_MIN, -1)` does not return it. -/
theorem Divide_INT_MIN_by_minus_one_not_truncated_quotient :
    isInt (-2147483648) ∧ isInt (-1) ∧ (-1 : Int) ≠ 0
    ∧ truncQuot (-2147483648) (-1) = 2147483648
    ∧ ¬ isInt (truncQuot (-2147483648) (-1))
    ∧ ∀ σ1, (SimpleCalculator.new 0).Divide Heap.fresh (-2147483648) (-1)
        ≠ Outcome.returned (truncQuot (-2147483648) (-1)) σ1 := by
  have ht : truncQuot (-2147483648) (-1) = 2147483648 := by
    rw [← tdiv_eq_truncQuot]
    decide
  refine ⟨by decide, by decide, by decide, ht, ?_, ?_⟩
  · rw [ht]
    decide
  · intro σ1 h
    rw [Divide_eq_of_none _ _ _ _ (by decide)] at h
    cases h

/-- C5: for `int`s `a`, `b` whose exact sum (difference, product) is an `int`,
`Add` returns `a + b`, `Subtract` returns `a - b` and `Multiply` returns `a * b`
as mathematical integers. -/
theorem Add_Subtract_Multiply_exact (c : SimpleCalculator) (σ : Heap) (a b : Int)
    (_ha : isInt a) (_hb : isInt b) :
    (isInt (a + b) → ∃ σ1, c.Add σ a b = Outcome.returned (a + b) σ1)
    ∧ (isInt (a - b) → ∃ σ1, c.Subtract σ a b = Outcome.returned (a - b) σ1)
    ∧ (isInt (a * b) → ∃ σ1, c.Multiply σ a b = Outcome.returned (a * b) σ1) := by
  refine ⟨fun h => ?_, fun h => ?_, fun h => ?_⟩
  · rw [Add_eq, intAdd, wrapInt_of_isInt _ h]
    exact ⟨_, rfl⟩
  · rw [Subtract_eq, intSub, wrapInt_of_isInt _ h]
    exact ⟨_, rfl⟩
  · rw [Multiply_eq, intMul, wrapInt_of_isInt _ h]
    exact ⟨_, rfl⟩

/-- Witness for C5: `-5` and `-3` are `int`s, so is their sum, and `Add(-5, -3)`
returns `-8`. -/
theorem Add_Subtract_Multiply_exact_witness :
    isInt (-5) ∧ isInt (-3) ∧ isInt (-5 + -3)
    ∧ ∃ σ1, (SimpleCalculator.new 0).Add Heap.fresh (-5) (-3) = Outcome.returned (-5 + -3) σ1 :=
  ⟨by decide, by decide, by decide,
   (Add_Subtract_Multiply_exact (SimpleCalculator.new 0) Heap.fresh (-5) (-3)
      (by decide) (by decide)).1 (by decide)⟩

/-- A call faults exactly when its division faults. -/
theorem call_fault_iff_intDiv (c : SimpleCalculator) (op : Operation) (σ : Heap) (a b : Int) :
    (∃ σ1, c.call op σ a b = Outcome.fault σ1) ↔ (op = Operation.Divide ∧ intDiv a b = none) := by
  cases op with
  | Add => simp [SimpleCalculator.call, Add_eq]
  | Subtract => simp [SimpleCalculator.call, Subtract_eq]
  | Multiply => simp [SimpleCalculator.call, Multiply_eq]
  | Divide =>
    simp only [SimpleCalculator.call, true_and]
    cases hq : intDiv a b with
    | none =>
      rw [Divide_eq_of_none c σ a b hq]
      simp
    | some q =>
      rw [Divide_eq_of_some c σ a b q hq]
      simp

/-- A call either faults or returns an `int`. -/
theorem call_returns_of_not_fault (c : SimpleCalculator) (op : Operation) (σ : Heap) (a b : Int)
    (ha : isInt a) (hb : isInt b) (h : ¬ (op = Operation.Divide ∧ intDiv a b = none)) :
    ∃ v σ1, c.call op σ a b = Outcome.returned v σ1 ∧ isInt v := by
  cases op with
  | Add => exact ⟨_, _, Add_eq c σ a b, wrapInt_isInt _⟩
  | Subtract => exact ⟨_, _, Subtract_eq c σ a b, wrapInt_isInt _⟩
  | Multiply => exact ⟨_, _, Multiply_eq c σ a b, wrapInt_isInt _⟩
  | Divide =>
    have hne : ¬ (b = 0 ∨ (a = INT_MIN ∧ b = -1)) := by
      intro hh
      exact h ⟨rfl, (intDiv_eq_none_iff a b ha hb).mpr hh⟩
    push_neg at hne
    have hov : ¬ (a = INT_MIN ∧ b = -1) := fun hh => hne.2 hh.1 hh.2
    refine ⟨_, _, Divide_eq_of_some c σ a b _ (intDiv_eq_some a b ha hb hne.1 hov), ?_⟩
    rw [← tdiv_eq_truncQuot]
    exact tdiv_isInt a b ha hb hov

/-- C9, as amended: a call of Add, Subtract, Multiply or Divide on `int`s `a`, `b` takes
the fault path if and only if it is Divide and either `b = 0` or the quotient is the
one that is not an `int`, `INT_MIN / -1`; every other call returns an `int`. -/
theorem call_faults_iff_division_undefined (c : SimpleCalculator) (op : Operation) (σ : Heap)
    (a b : Int) (ha : isInt a) (hb : isInt b) :
    ((∃ σ1, c.call op σ a b = Outcome.fault σ1)
        ↔ (op = Operation.Divide ∧ (b = 0 ∨ (a = INT_MIN ∧ b = -1))))
    ∧ (¬ (op = Operation.Divide ∧ (b = 0 ∨ (a = INT_MIN ∧ b = -1)))
        → ∃ v σ1, c.call op σ a b = Outcome.returned v σ1 ∧ isInt v) := by
  have hiff := intDiv_eq_none_iff a b ha hb
  constructor
  · rw [call_fault_iff_intDiv, hiff]
  · intro h
    apply call_returns_of_not_fault c op σ a b ha hb
    rw [hiff]
    exact h

/-- Witness for C9: `Divide(6, 3)` on `int`s is not a faulting call and returns. -/
theorem call_faults_iff_division_undefined_witness :
    isInt 6 ∧ isInt 3
    ∧ ∃ v σ1, (SimpleCalculator.new 0).call Operation.Divide Heap.fresh 6 3
        = Outcome.returned v σ1 ∧ isInt v :=
  ⟨by decide, by decide,
   (call_faults_iff_division_undefined (SimpleCalculator.new 0) Operation.Divide Heap.fresh 6 3
      (by decide) (by decide)).2 (by decide)⟩

/-- Counterexample to C9 as stated: `INT_MIN` and `-1` are `int`s, `Divide(INT_MIN, -1)`
takes the fault path, and its divisor is not zero. -/
theorem Divide_INT_MIN_by_minus_one_faults :
    isInt (-2147483648) ∧ isInt (-1)
    ∧ ¬ ((∃ σ1, (SimpleCalculator.new 0).call Operation.Divide Heap.fresh (-2147483648) (-1)
            = Outcome.fault σ1)
          ↔ (Operation.Divide = Operation.Divide ∧ (-1 : Int) = 0)) := by
  refine ⟨by decide, by decide, ?_⟩
  intro h
  have hf : ∃ σ1, (SimpleCalculator.new 0).call Operation.Divide Heap.fresh (-2147483648) (-1)
      = Outcome.fault σ1 :=
    ⟨Heap.fresh, by
      show (SimpleCalculator.new 0).Divide Heap.fresh (-2147483648) (-1) = Outcome.fault Heap.fresh
      exact Divide_eq_of_none (SimpleCalculator.new 0) Heap.fresh (-2147483648) (-1)
        (by decide)⟩
  exact absurd (h.mp hf).2 (by decide)

/-! ## Theorems: SetHistory -/

/-- The assignment in `SetHistory` leaves every history object as it was. -/
theorem SetHistory_heap_eq (c : SimpleCalculator) (σ : Heap) (history : Addr) :
    c.SetHistory σ history = σ := by
  unfold SimpleCalculator.SetHistory IHistory.assign
  exact Heap.update_self σ c.m_history

/-- C6, the code at its failing input: a calculator constructed bound to the empty store
at address `0` is given `SetHistory` of the distinct empty store at address `1`; the
`Add(2, 2)` that follows returns `4`, its record lands in the store at `0`, and
the store at `1` stays empty. -/
theorem SetHistory_then_Add_writes_old_store :
    (SimpleCalculator.new 0).Add ((SimpleCalculator.new 0).SetHistory Heap.fresh 1) 2 2
        = Outcome.returned 4 (Heap.fresh.appendAt 0 "2 + 2 = 4")
    ∧ (Heap.fresh.appendAt 0 "2 + 2 = 4" 0).m_operations = ["2 + 2 = 4"]
    ∧ (Heap.fresh.appendAt 0 "2 + 2 = 4" 1).m_operations = []
    ∧ (Heap.fresh 0).m_operations = [] := by
  refine ⟨?_, by decide, by decide, by decide⟩
  rw [SetHistory_heap_eq]
  rfl

/-! ## Theorems: the record format -/

theorem utoaCore_eq_digits (fuel : Nat) : ∀ (n : Nat) (acc : List Char), n < fuel → 0 < n →
    utoaCore fuel n acc = (Nat.digits 10 n).reverse.map digitChar ++ acc := by
  induction fuel with
  | zero =>
    intro n acc h
    omega
  | succ fuel ih =>
    intro n acc hlt hpos
    rw [Nat.digits_def' (by norm_num) hpos]
    unfold utoaCore
    by_cases h0 : n / 10 = 0
    · simp [h0]
    · rw [if_neg h0, ih (n / 10) _ (by omega) (by omega)]
      simp

theorem utoa_eq_decDigits (n : Nat) : utoa n = decDigits n := by
  unfold utoa decDigits
  by_cases h : n = 0
  · subst h
    rfl
  · rw [if_neg h, utoaCore_eq_digits (n + 1) n [] (by omega) (by omega)]
    simp

/-- What `operator<<` writes for an `int` is its base-10 rendering `dec`. -/
theorem itoa_eq_dec (n : Int) : itoa n = dec n := by
  unfold itoa dec
  simp only [utoa_eq_decDigits]

theorem recordText_eq_recordSpec (a : Int) (op : String) (b result : Int) :
    recordText a op b result = recordSpec a op b result := by
  unfold recordText recordSpec
  simp only [itoa_eq_dec]

theorem digitChar_isDigit (d : Nat) (h : d < 10) : (digitChar d).isDigit = true := by
  interval_cases d <;> decide

theorem digitChar_toNat_sub (d : Nat) (h : d < 10) : (digitChar d).toNat - 48 = d := by
  interval_cases d <;> decide

theorem digitChar_eq_zero (d : Nat) (h : d < 10) (h0 : digitChar d = '0') : d = 0 := by
  interval_cases d <;> first | rfl | (exact absurd h0 (by decide))

theorem decimalValue_digits (L : List Nat) (hL : ∀ d ∈ L, d < 10) :
    decimalValue (L.reverse.map digitChar) = Nat.ofDigits 10 L := by
  unfold decimalValue
  induction L with
  | nil => simp
  | cons d L ih =>
    have hd : (digitChar d).toNat - 48 = d := digitChar_toNat_sub d (hL d (by simp))
    have ih1 := ih (fun x hx => hL x (by simp [hx]))
    simp only [List.reverse_cons, List.map_append, List.foldl_append, List.map_cons,
      List.map_nil, List.foldl_cons, List.foldl_nil, Nat.ofDigits_cons]
    rw [ih1, hd]
    ring

theorem decDigits_value (m : Nat) : decimalValue (decDigits m) = m := by
  unfold decDigits
  by_cases h : m = 0
  · subst h
    decide
  · rw [if_neg h, decimalValue_digits _ (fun d hd => Nat.digits_lt_base (by norm_num) hd)]
    exact Nat.ofDigits_digits 10 m

theorem decDigits_ne_nil (m : Nat) : decDigits m ≠ [] := by
  unfold decDigits
  by_cases h : m = 0
  · simp [h]
  · simp [h, Nat.digits_ne_nil_iff_ne_zero]

theorem decDigits_isDigit (m : Nat) : ∀ ch ∈ decDigits m, ch.isDigit = true := by
  unfold decDigits
  by_cases h : m = 0
  · simp [h]
  · rw [if_neg h]
    intro ch hch
    simp only [List.mem_map, List.mem_reverse] at hch
    obtain ⟨d, hd, rfl⟩ := hch
    exact digitChar_isDigit d (Nat.digits_lt_base (by norm_num) hd)

theorem decDigits_head_zero (m : Nat) (h : (decDigits m).head? = some '0') : m = 0 := by
  by_contra hm
  unfold decDigits at h
  rw [if_neg hm] at h
  have hne : Nat.digits 10 m ≠ [] := Nat.digits_ne_nil_iff_ne_zero.mpr hm
  have hlast := Nat.getLast_digit_ne_zero 10 hm
  have hlt : (Nat.digits 10 m).getLast hne < 10 :=
    Nat.digits_lt_base (by norm_num) (List.getLast_mem hne)
  rw [List.head?_map, List.head?_reverse, List.getLast?_eq_getLast _ hne] at h
  simp only [Option.map_some', Option.some.injEq] at h
  exact hlast (digitChar_eq_zero _ hlt h)

/-- The digits of a magnitude form its decimal numeral. -/
theorem decDigits_isDecimalOf (m : Nat) : IsDecimalOf (decDigits m) m := by
  refine ⟨decDigits_ne_nil m, decDigits_isDigit m, ?_, decDigits_value m⟩
  intro h
  have hm := decDigits_head_zero m h
  subst hm
  rfl

/-- The rendering of an integer: a minus sign and the numeral of the magnitude when
negative, the numeral alone otherwise. -/
theorem dec_sign_and_digits (n : Int) :
    (n < 0 → ∃ ds, dec n = '-' :: ds ∧ IsDecimalOf ds n.natAbs)
    ∧ (0 ≤ n → IsDecimalOf (dec n) n.natAbs) := by
  unfold dec
  constructor
  · intro h
    exact ⟨_, by rw [if_pos h], decDigits_isDecimalOf _⟩
  · intro h
    rw [if_neg (by omega)]
    exact decDigits_isDecimalOf _

theorem dec_ne_nil (n : Int) : dec n ≠ [] := by
  unfold dec
  split
  · simp
  · exact decDigits_ne_nil _

theorem space_not_mem_dec (n : Int) : ' ' ∉ dec n := by
  have hd : ' ' ∉ decDigits n.natAbs := fun h =>
    absurd (decDigits_isDigit _ _ h) (by decide)
  unfold dec
  split
  · intro h
    rcases List.mem_cons.mp h with h1 | h1
    · exact absurd h1 (by decide)
    · exact hd h1
  · exact hd

theorem recordSpec_data (a : Int) (op : String) (b result : Int) :
    (recordSpec a op b result).data
      = [' '].intercalate [dec a, op.data, dec b, ['='], dec result] := by
  simp [recordSpec, String.data_append, List.intercalate]

/-- C7: for every symbol `op` among `+ - * /` and all integers `a`, `b`, `result`,
`LogOperation` appends exactly `dec(a) ++ " " ++ op ++ " " ++ dec(b) ++ " = " ++ dec(result)`,
where `dec(n)` is a single leading `-` exactly when `n` is negative followed by the
decimal numeral of the magnitude (digits only, no leading zero, `0` for zero);
cut at its spaces the record falls into exactly the five tokens
`dec(a)`, `op`, `dec(b)`, `=`, `dec(result)`, none empty and none holding a space. -/
theorem LogOperation_record_format (c : SimpleCalculator) (σ : Heap) (op : String)
    (hop : op ∈ ["+", "-", "*", "/"]) (a b result : Int) :
    c.LogOperation σ a op b result = σ.appendAt c.m_history (recordSpec a op b result)
    ∧ (∀ n : Int, (n < 0 → ∃ ds, dec n = '-' :: ds ∧ IsDecimalOf ds n.natAbs)
        ∧ (0 ≤ n → IsDecimalOf (dec n) n.natAbs))
    ∧ (recordSpec a op b result).data.splitOn ' '
        = [dec a, op.data, dec b, ['='], dec result]
    ∧ ∀ t ∈ [dec a, op.data, dec b, ['='], dec result], t ≠ [] ∧ ' ' ∉ t := by
  have hopOK : op.data ≠ [] ∧ ' ' ∉ op.data := by
    simp only [List.mem_cons, List.mem_singleton, List.not_mem_nil, or_false] at hop
    rcases hop with h | h | h | h <;> subst h <;> decide
  have htok : ∀ t ∈ [dec a, op.data, dec b, ['='], dec result], t ≠ [] ∧ ' ' ∉ t := by
    intro t ht
    simp only [List.mem_cons, List.mem_singleton, List.not_mem_nil, or_false] at ht
    rcases ht with h | h | h | h | h <;> subst h
    · exact ⟨dec_ne_nil _, space_not_mem_dec _⟩
    · exact hopOK
    · exact ⟨dec_ne_nil _, space_not_mem_dec _⟩
    · decide
    · exact ⟨dec_ne_nil _, space_not_mem_dec _⟩
  refine ⟨?_, dec_sign_and_digits, ?_, htok⟩
  · rw [LogOperation_eq_appendAt, recordText_eq_recordSpec]
  · rw [recordSpec_data]
    exact List.splitOn_intercalate _ ' ' (fun l hl => (htok l hl).2) (by simp)

/-- Witness for C7: with the symbol `+`, the record of `-5`, `-3`, `-8` is
`-5 + -3 = -8`. -/
theorem LogOperation_record_format_witness :
    "+" ∈ ["+", "-", "*", "/"]
    ∧ recordSpec (-5) "+" (-3) (-8) = "-5 + -3 = -8"
    ∧ (SimpleCalculator.new 0).LogOperation Heap.fresh (-5) "+" (-3) (-8)
        = Heap.fresh.appendAt 0 (recordSpec (-5) "+" (-3) (-8)) :=
  ⟨by decide, by simp [recordSpec, dec, decDigits, digitChar],
   (LogOperation_record_format (SimpleCalculator.new 0) Heap.fresh "+" (by decide)
      (-5) (-3) (-8)).1⟩

/-! ## Theorems: bounds and purity of GetLastOperations -/

/-- C11: for a store of any size `n` and any count, `GetLastOperations` never fails:
the start offset `n - min count n` lies in `[0, n]`, the iterator subtraction and the
range constructor meet their preconditions and yield the slice; a count above `n`
gives all `n` records and nothing more, and count `0` gives the empty sequence. -/
theorem GetLastOperations_in_bounds (h : InMemoryHistory) (count : Nat) :
    h.m_operations.length - min count h.m_operations.length ≤ h.m_operations.length
    ∧ iteratorSub h.m_operations.length h.m_operations.length
        (min count h.m_operations.length)
        = some (h.m_operations.length - min count h.m_operations.length)
    ∧ h.GetLastOperationsChecked count = some (h.GetLastOperations count)
    ∧ (h.m_operations.length < count → h.GetLastOperations count = h.m_operations)
    ∧ h.GetLastOperations 0 = [] := by
  have hsub : iteratorSub h.m_operations.length h.m_operations.length
      (min count h.m_operations.length)
      = some (h.m_operations.length - min count h.m_operations.length) := by
    unfold iteratorSub
    rw [if_pos ⟨Nat.min_le_right _ _, Nat.le_refl _⟩]
  refine ⟨Nat.sub_le _ _, hsub, ?_, ?_, ?_⟩
  · unfold InMemoryHistory.GetLastOperationsChecked
    simp only [hsub]
    unfold vectorRangeChecked
    rw [if_pos ⟨Nat.sub_le _ _, Nat.le_refl _⟩]
    rfl
  · intro hlt
    rw [GetLastOperations_eq_drop, Nat.min_eq_right (Nat.le_of_lt hlt)]
    simp
  · rw [GetLastOperations_eq_drop]
    simp

/-- Witness for C11: a store of two records asked for five returns exactly the two. -/
theorem GetLastOperations_in_bounds_witness :
    (2 < 5)
    ∧ InMemoryHistory.GetLastOperations { m_operations := ["1 + 1 = 2", "2 * 2 = 4"] } 5
        = ["1 + 1 = 2", "2 * 2 = 4"] :=
  ⟨by decide,
   (GetLastOperations_in_bounds { m_operations := ["1 + 1 = 2", "2 * 2 = 4"] } 5).2.2.2.1
     (by decide)⟩

/-- C14: `GetLastOperations` is a pure read: the store after the call is the store
before it, record for record, and a second call with the same count right after
the first returns the same list and again leaves the store as it was. -/
theorem GetLastOperations_pure_read (h : InMemoryHistory) (count : Nat) :
    (h.GetLastOperationsRun count).2 = h
    ∧ (h.GetLastOperationsRun count).2.m_operations = h.m_operations
    ∧ ((h.GetLastOperationsRun count).2.GetLastOperationsRun count).1
        = (h.GetLastOperationsRun count).1
    ∧ ((h.GetLastOperationsRun count).2.GetLastOperationsRun count).2 = h :=
  ⟨rfl, rfl, rfl, rfl⟩

/-! ## Theorems: SetHistory and Add with zero -/

/-- C12: for a calculator bound to store `A` and any store `B`, the call `SetHistory(B)`
writes, removes and alters no record: the records of `A`, of `B` and of every other
store after the call are the ones before it. -/
theorem SetHistory_changes_no_record (c : SimpleCalculator) (σ : Heap) (B : Addr) :
    (c.SetHistory σ B c.m_history).m_operations = (σ c.m_history).m_operations
    ∧ (c.SetHistory σ B B).m_operations = (σ B).m_operations
    ∧ ∀ q, c.SetHistory σ B q = σ q := by
  rw [SetHistory_heap_eq]
  exact ⟨rfl, rfl, fun _ => rfl⟩

/-- C13: for every `int` `a`, the smallest and the largest included, `Add(a, 0)` returns
`a` itself, the exact sum being an `int`, and appends the record `<a> + 0 = <a>`. -/
theorem Add_zero_returns_operand (c : SimpleCalculator) (σ : Heap) (a : Int) (ha : isInt a) :
    isInt (a + 0)
    ∧ c.Add σ a 0 = Outcome.returned a (σ.appendAt c.m_history (recordSpec a "+" 0 a))
    ∧ (σ.appendAt c.m_history (recordSpec a "+" 0 a) c.m_history).m_operations
        = (σ c.m_history).m_operations ++ [recordSpec a "+" 0 a] := by
  have h0 : intAdd a 0 = a := by
    unfold intAdd
    rw [Int.add_zero, wrapInt_of_isInt a ha]
  refine ⟨by rw [Int.add_zero]; exact ha, ?_, Heap.appendAt_same _ _ _⟩
  rw [Add_eq, h0, recordText_eq_recordSpec]

/-- Witness for C13: `INT_MAX` is an `int`, `Add(INT_MAX, 0)` returns it and the record
is `2147483647 + 0 = 2147483647`. -/
theorem Add_zero_returns_operand_witness :
    isInt 2147483647
    ∧ recordSpec 2147483647 "+" 0 2147483647 = "2147483647 + 0 = 2147483647"
    ∧ (SimpleCalculator.new 0).Add Heap.fresh 2147483647 0
        = Outcome.returned 2147483647
            (Heap.fresh.appendAt 0 (recordSpec 2147483647 "+" 0 2147483647)) :=
  ⟨by decide, by simp [recordSpec, dec, decDigits, digitChar],
   (Add_zero_returns_operand (SimpleCalculator.new 0) Heap.fresh 2147483647
      (by decide)).2.1⟩

/-! ## Theorems: sequences of calls -/

/-- A run of calls that all return appends their records, in call order, to the bound
store and returns one value per call. -/
theorem runCalls_m_operations (c : SimpleCalculator) (calls : List (Operation × Int × Int)) :
    ∀ (σ : Heap) (vs : List Int) (σ1 : Heap), c.runCalls σ calls = some (vs, σ1) →
      vs.length = calls.length
      ∧ (σ1 c.m_history).m_operations
          = (σ c.m_history).m_operations ++ callRecords calls vs := by
  induction calls with
  | nil =>
    intro σ vs σ1 h
    simp only [SimpleCalculator.runCalls, Option.some.injEq, Prod.mk.injEq] at h
    rw [← h.1, ← h.2]
    simp [callRecords]
  | cons call rest ih =>
    intro σ vs σ1 h
    obtain ⟨op, a, b⟩ := call
    simp only [SimpleCalculator.runCalls] at h
    cases hcall : c.call op σ a b with
    | fault ρ =>
      rw [hcall] at h
      cases h
    | returned v ρ =>
      rw [hcall] at h
      dsimp only at h
      cases hrest : c.runCalls ρ rest with
      | none =>
        rw [hrest] at h
        cases h
      | some res =>
        obtain ⟨ws, ρ1⟩ := res
        rw [hrest] at h
        simp only [Option.some.injEq, Prod.mk.injEq] at h
        obtain ⟨hlen, hops⟩ := ih ρ ws ρ1 hrest
        have hρ := call_returned c op σ a b v ρ hcall
        rw [← h.1, ← h.2, hops, hρ, Heap.appendAt_same]
        simp [callRecords, hlen]

/-- C15: after any sequence of `k` calls that all return, made one after the other on a
calculator whose bound store was empty at the start, `GetLastOperations m` on that
store is the list of the records of the last `min m k` calls, in call order, for
every `m`; with `m = k` it is the whole trace of the `k` calls. -/
theorem GetLastOperations_after_calls (c : SimpleCalculator) (σ : Heap)
    (calls : List (Operation × Int × Int)) (vs : List Int) (σ1 : Heap) (m : Nat)
    (hempty : (σ c.m_history).m_operations = [])
    (hrun : c.runCalls σ calls = some (vs, σ1)) :
    (callRecords calls vs).length = calls.length
    ∧ (σ1 c.m_history).GetLastOperations m
        = (callRecords calls vs).drop (calls.length - min m calls.length)
    ∧ ((σ1 c.m_history).GetLastOperations m).length = min m calls.length
    ∧ (σ1 c.m_history).GetLastOperations calls.length = callRecords calls vs := by
  obtain ⟨hlen, hops⟩ := runCalls_m_operations c calls σ vs σ1 hrun
  rw [hempty, List.nil_append] at hops
  have hrec : (callRecords calls vs).length = calls.length := by
    simp [callRecords, hlen]
  refine ⟨hrec, ?_, ?_, ?_⟩
  · rw [GetLastOperations_eq_drop, hops, hrec]
  · rw [GetLastOperations_eq_drop, hops, hrec, List.length_drop, hrec]
    omega
  · rw [GetLastOperations_eq_drop, hops, hrec]
    simp

/-- Witness for C15: `Add(2, 2)`, `Multiply(3, 3)`, `Divide(5, 2)` on a fresh store;
asking for the last two returns the records of the last two calls. -/
theorem GetLastOperations_after_calls_witness :
    (Heap.fresh 0).m_operations = []
    ∧ (SimpleCalculator.new 0).runCalls Heap.fresh
        [(Operation.Add, 2, 2), (Operation.Multiply, 3, 3), (Operation.Divide, 5, 2)]
        = some ([4, 9, 2], ((Heap.fresh.appendAt 0 "2 + 2 = 4").appendAt 0
            "3 * 3 = 9").appendAt 0 "5 / 2 = 2")
    ∧ InMemoryHistory.GetLastOperations
        ((((Heap.fresh.appendAt 0 "2 + 2 = 4").appendAt 0 "3 * 3 = 9").appendAt 0
          "5 / 2 = 2") 0) 2
        = ["3 * 3 = 9", "5 / 2 = 2"] :=
  ⟨rfl, rfl,
   ((GetLastOperations_after_calls (SimpleCalculator.new 0) Heap.fresh
      [(Operation.Add, 2, 2), (Operation.Multiply, 3, 3), (Operation.Divide, 5, 2)]
      [4, 9, 2] (((Heap.fresh.appendAt 0 "2 + 2 = 4").appendAt 0 "3 * 3 = 9").appendAt 0
        "5 / 2 = 2") 2 rfl rfl).2.1).trans (by decide)⟩

/-! ## Theorems: independence from the store -/

theorem foldl_SetHistory_eq (c : SimpleCalculator) (bs : List Addr) :
    ∀ σ : Heap, bs.foldl c.SetHistory σ = σ := by
  induction bs with
  | nil =>
    intro σ
    rfl
  | cons B bs ih =>
    intro σ
    rw [List.foldl_cons, SetHistory_heap_eq, ih]

/-- The value a call returns is fixed by the operation and the operands. -/
theorem call_value_unique (c1 c2 : SimpleCalculator) (σ1 σ2 : Heap) (op : Operation)
    (a b v1 v2 : Int) (ρ1 ρ2 : Heap) (h1 : c1.call op σ1 a b = Outcome.returned v1 ρ1)
    (h2 : c2.call op σ2 a b = Outcome.returned v2 ρ2) : v1 = v2 := by
  cases op with
  | Add =>
    simp only [SimpleCalculator.call, Add_eq, Outcome.returned.injEq] at h1 h2
    rw [← h1.1, ← h2.1]
  | Subtract =>
    simp only [SimpleCalculator.call, Subtract_eq, Outcome.returned.injEq] at h1 h2
    rw [← h1.1, ← h2.1]
  | Multiply =>
    simp only [SimpleCalculator.call, Multiply_eq, Outcome.returned.injEq] at h1 h2
    rw [← h1.1, ← h2.1]
  | Divide =>
    simp only [SimpleCalculator.call] at h1 h2
    cases hq : intDiv a b with
    | none =>
      rw [Divide_eq_of_none c1 σ1 a b hq] at h1
      cases h1
    | some q =>
      rw [Divide_eq_of_some c1 σ1 a b q hq] at h1
      rw [Divide_eq_of_some c2 σ2 a b q hq] at h2
      simp only [Outcome.returned.injEq] at h1 h2
      rw [← h1.1, ← h2.1]

/-- C16: take two calculators bound to any stores in any heaps, after any `SetHistory`
calls on each. When the same operation on the same `a`, `b` returns on both, it
returns the same value, and the record appended to the one bound store is the same
string as the record appended to the other. -/
theorem call_value_and_record_independent_of_store (c1 c2 : SimpleCalculator)
    (σ1 σ2 : Heap) (bs1 bs2 : List Addr) (op : Operation) (a b v1 v2 : Int) (ρ1 ρ2 : Heap)
    (h1 : c1.call op (bs1.foldl c1.SetHistory σ1) a b = Outcome.returned v1 ρ1)
    (h2 : c2.call op (bs2.foldl c2.SetHistory σ2) a b = Outcome.returned v2 ρ2) :
    v1 = v2
    ∧ (ρ1 c1.m_history).m_operations
        = (σ1 c1.m_history).m_operations ++ [recordText a op.symbol b v1]
    ∧ (ρ2 c2.m_history).m_operations
        = (σ2 c2.m_history).m_operations ++ [recordText a op.symbol b v1] := by
  rw [foldl_SetHistory_eq] at h1 h2
  have hv := call_value_unique c1 c2 σ1 σ2 op a b v1 v2 ρ1 ρ2 h1 h2
  have hρ1 := call_returned c1 op σ1 a b v1 ρ1 h1
  have hρ2 := call_returned c2 op σ2 a b v2 ρ2 h2
  refine ⟨hv, ?_, ?_⟩
  · rw [hρ1, Heap.appendAt_same]
  · rw [hρ2, Heap.appendAt_same, hv]

/-- Witness for C16: `Multiply(3, 3)` on a calculator bound to an empty store and on one
bound, after a `SetHistory`, to a store that already holds a record. -/
theorem call_value_and_record_independent_of_store_witness :
    (SimpleCalculator.new 0).call Operation.Multiply
        ([].foldl (SimpleCalculator.new 0).SetHistory Heap.fresh) 3 3
      = Outcome.returned 9 (Heap.fresh.appendAt 0 "3 * 3 = 9")
    ∧ (SimpleCalculator.new 1).call Operation.Multiply
        ([0].foldl (SimpleCalculator.new 1).SetHistory (Heap.fresh.appendAt 1 "1 + 1 = 2")) 3 3
      = Outcome.returned 9 ((Heap.fresh.appendAt 1 "1 + 1 = 2").appendAt 1 "3 * 3 = 9")
    ∧ (9 : Int) = 9
    ∧ ((Heap.fresh.appendAt 1 "1 + 1 = 2").appendAt 1 "3 * 3 = 9" 1).m_operations
        = (Heap.fresh.appendAt 1 "1 + 1 = 2" 1).m_operations
            ++ [recordText 3 Operation.Multiply.symbol 3 9] :=
  have h := call_value_and_record_independent_of_store (SimpleCalculator.new 0)
    (SimpleCalculator.new 1) Heap.fresh (Heap.fresh.appendAt 1 "1 + 1 = 2") [] [0]
    Operation.Multiply 3 3 9 9 (Heap.fresh.appendAt 0 "3 * 3 = 9")
    ((Heap.fresh.appendAt 1 "1 + 1 = 2").appendAt 1 "3 * 3 = 9") rfl
    (by rw [foldl_SetHistory_eq]; rfl)
  ⟨rfl, by rw [foldl_SetHistory_eq]; rfl, h.1, h.2.2⟩

/-! ## Theorems: the record format is unambiguous -/

theorem dec_injective (a b : Int) (h : dec a = dec b) : a = b := by
  have hminus : ∀ m : Nat, '-' ∉ decDigits m := fun m hm =>
    absurd (decDigits_isDigit m _ hm) (by decide)
  have hval : ∀ m n : Nat, decDigits m = decDigits n → m = n := by
    intro m n hmn
    have := congrArg decimalValue hmn
    rwa [decDigits_value, decDigits_value] at this
  unfold dec at h
  by_cases ha : a < 0 <;> by_cases hb : b < 0
  · rw [if_pos ha, if_pos hb] at h
    have := hval _ _ (List.cons.inj h).2
    omega
  · rw [if_pos ha, if_neg hb] at h
    exact absurd (h ▸ List.mem_cons_self _ _) (hminus _)
  · rw [if_neg ha, if_pos hb] at h
    exact absurd (h ▸ List.mem_cons_self _ _) (hminus _)
  · rw [if_neg ha, if_neg hb] at h
    have := hval _ _ h
    omega

theorem symbol_data_no_space (op : String) (hop : op ∈ ["+", "-", "*", "/"]) :
    ' ' ∉ op.data := by
  simp only [List.mem_cons, List.mem_singleton, List.not_mem_nil, or_false] at hop
  rcases hop with h | h | h | h <;> subst h <;> decide

/-- Cut at its spaces, a record falls into its five tokens. -/
theorem recordSpec_splitOn (a : Int) (op : String) (b result : Int) (hop : ' ' ∉ op.data) :
    (recordSpec a op b result).data.splitOn ' '
      = [dec a, op.data, dec b, ['='], dec result] := by
  rw [recordSpec_data]
  apply List.splitOn_intercalate _ ' ' _ (by simp)
  intro t ht
  simp only [List.mem_cons, List.mem_singleton, List.not_mem_nil, or_false] at ht
  rcases ht with h | h | h | h | h <;> subst h
  · exact space_not_mem_dec _
  · exact hop
  · exact space_not_mem_dec _
  · decide
  · exact space_not_mem_dec _

theorem recordSpec_injective (op1 op2 : String) (h1 : ' ' ∉ op1.data) (h2 : ' ' ∉ op2.data)
    (a1 b1 r1 a2 b2 r2 : Int) (h : recordSpec a1 op1 b1 r1 = recordSpec a2 op2 b2 r2) :
    op1 = op2 ∧ a1 = a2 ∧ b1 = b2 ∧ r1 = r2 := by
  have hs := congrArg (fun s : String => s.data.splitOn ' ') h
  simp only [recordSpec_splitOn _ _ _ _ h1, recordSpec_splitOn _ _ _ _ h2] at hs
  simp only [List.cons.injEq, and_true, true_and] at hs
  obtain ⟨ha, ho, hb, hr⟩ := hs
  exact ⟨String.ext ho, dec_injective _ _ ha, dec_injective _ _ hb, dec_injective _ _ hr⟩

/-- C17: the record format is unambiguous. For symbols `op1`, `op2` among `+ - * /` and
all integers, if `LogOperation` appends for `(a1, op1, b1, c1)` the same record as it
appends for `(a2, op2, b2, c2)`, then `op1 = op2`, `a1 = a2`, `b1 = b2` and `c1 = c2`. -/
theorem LogOperation_record_unambiguous (c : SimpleCalculator) (σ : Heap) (op1 op2 : String)
    (hop1 : op1 ∈ ["+", "-", "*", "/"]) (hop2 : op2 ∈ ["+", "-", "*", "/"])
    (a1 b1 c1 a2 b2 c2 : Int)
    (h : c.LogOperation σ a1 op1 b1 c1 = c.LogOperation σ a2 op2 b2 c2) :
    op1 = op2 ∧ a1 = a2 ∧ b1 = b2 ∧ c1 = c2 := by
  rw [LogOperation_eq_appendAt, LogOperation_eq_appendAt] at h
  have hops := congrArg (fun τ : Heap => (τ c.m_history).m_operations) h
  simp only [Heap.appendAt_same] at hops
  have hrec : recordText a1 op1 b1 c1 = recordText a2 op2 b2 c2 := by
    simpa using hops
  rw [recordText_eq_recordSpec, recordText_eq_recordSpec] at hrec
  exact recordSpec_injective op1 op2 (symbol_data_no_space op1 hop1)
    (symbol_data_no_space op2 hop2) a1 b1 c1 a2 b2 c2 hrec

/-- Witness for C17: a record built twice from `(5, -, -3, 8)` gives back equal parts. -/
theorem LogOperation_record_unambiguous_witness :
    "-" ∈ ["+", "-", "*", "/"]
    ∧ (SimpleCalculator.new 0).LogOperation Heap.fresh 5 "-" (-3) 8
        = (SimpleCalculator.new 0).LogOperation Heap.fresh 5 "-" (-3) 8
    ∧ ("-" = "-" ∧ (5 : Int) = 5 ∧ (-3 : Int) = -3 ∧ (8 : Int) = 8) :=
  ⟨by decide, rfl,
   LogOperation_record_unambiguous (SimpleCalculator.new 0) Heap.fresh "-" "-"
     (by decide) (by decide) 5 (-3) 8 5 (-3) 8 rfl⟩

end Calc
